import Mathlib

/-!
Shallow embedding of the person tracker from `src/python-service/main.py`
(class `PersonTracker` and its use in `detect_persons`).

Modelling choices:
* Python floats become `ℚ` (exact arithmetic).
* The table `self.tracks : Dict[int, Dict]` becomes an association list
  `List (ℕ × Track)` kept in insertion order — Python dicts iterate in
  insertion order, and tracks are only ever inserted with fresh, ever
  increasing keys, so insertion order is ascending-id order (proved below).
* `time.time()` read at the top of `update` becomes an explicit `now : ℚ`
  parameter.
* The detection dicts carry opaque extra fields (confidence, landmarks)
  that `update` passes through untouched; a detection is modelled as a
  `Box × α` where `α` is that opaque payload, and the returned annotated
  detection is the same pair together with the assigned `track_id : ℕ`.
-/

attribute [local semireducible] Rat.mul Rat.inv Rat.add Rat.sub Rat.ofScientific

namespace MediWatch

/-- A bounding box `(x, y, w, h)` in normalized coordinates, as the tuples
handed to `PersonTracker._iou`. -/
structure Box where
  x : ℚ
  y : ℚ
  w : ℚ
  h : ℚ
deriving DecidableEq, Repr

/-- One entry of `self.tracks`: the dict `{box, last_seen, history}`. -/
structure Track where
  box : Box
  last_seen : ℚ
  history : List Box
deriving DecidableEq, Repr

/-- The mutable state of a `PersonTracker` instance: `self.tracks` (in dict
insertion order), `self.next_id`, `self.max_age`, `self.iou_threshold`. -/
structure TrackerState where
  tracks : List (ℕ × Track)
  next_id : ℕ
  max_age : ℚ
  iou_threshold : ℚ
deriving DecidableEq, Repr

/-- The constructor `PersonTracker.__init__` with the default arguments
(`max_age = 2.0`, `iou_threshold = 0.3`, `next_id = 1`, empty table). -/
def initTracker : TrackerState := ⟨[], 1, 2, 3/10⟩

/-- Python's builtin `max` on two numbers, written so the kernel can
evaluate it on concrete rationals. -/
def fmax (a b : ℚ) : ℚ := if a ≤ b then b else a

/-- Python's builtin `min` on two numbers, written so the kernel can
evaluate it on concrete rationals. -/
def fmin (a b : ℚ) : ℚ := if b ≤ a then b else a

theorem fmax_eq_max (a b : ℚ) : fmax a b = max a b := (max_def a b).symm

theorem fmin_eq_min (a b : ℚ) : fmin a b = min a b := by
  unfold fmin
  rcases le_or_lt b a with h | h
  · rw [if_pos h, min_eq_right h]
  · rw [if_neg (not_le.mpr h), min_eq_left h.le]

/-- The method `PersonTracker._iou` (main.py lines 38-62), translated clause by clause:
convert both boxes to corner form, intersect, return `0` when the
intersection is empty (`ix2 <= ix1 or iy2 <= iy1`), otherwise divide the
intersection area by the union area, guarding `union_area > 0`. -/
def iou (box1 box2 : Box) : ℚ :=
  let ax1 := box1.x; let ay1 := box1.y
  let ax2 := box1.x + box1.w; let ay2 := box1.y + box1.h
  let bx1 := box2.x; let by1 := box2.y
  let bx2 := box2.x + box2.w; let by2 := box2.y + box2.h
  let ix1 := fmax ax1 bx1
  let iy1 := fmax ay1 by1
  let ix2 := fmin ax2 bx2
  let iy2 := fmin ay2 by2
  if ix2 ≤ ix1 ∨ iy2 ≤ iy1 then 0
  else
    let interArea := (ix2 - ix1) * (iy2 - iy1)
    let area1 := box1.w * box1.h
    let area2 := box2.w * box2.h
    let unionArea := area1 + area2 - interArea
    if 0 < unionArea then interArea / unionArea else 0

/-- The eviction pass at the top of `update` (main.py lines 68-74): delete
every track with `current_time - last_seen > max_age`, i.e. keep exactly
those with `now - last_seen ≤ max_age`; deletion keeps the order of the
remaining dict entries. -/
def evict (maxAge now : ℚ) (tracks : List (ℕ × Track)) : List (ℕ × Track) :=
  tracks.filter (fun p => decide (now - p.2.last_seen ≤ maxAge))

/-- The inner matching loop of `update` (main.py lines 82-92): scan the
table in dict order, skip tracks already in `matched_tracks`, and keep the
first track whose IoU strictly exceeds the best seen so far, starting from
`best_iou = iou_threshold` and `best_match = None`. -/
def bestMatchAux (detBox : Box) (matched : List ℕ) :
    List (ℕ × Track) → ℚ → Option ℕ → Option ℕ
  | [], _, best => best
  | (tid, tr) :: rest, bestIou, best =>
    if tid ∈ matched then
      bestMatchAux detBox matched rest bestIou best
    else if bestIou < iou detBox tr.box then
      bestMatchAux detBox matched rest (iou detBox tr.box) (some tid)
    else
      bestMatchAux detBox matched rest bestIou best

/-- The whole best-match computation for one detection. -/
def bestMatch (detBox : Box) (matched : List ℕ)
    (tracks : List (ℕ × Track)) (thr : ℚ) : Option ℕ :=
  bestMatchAux detBox matched tracks thr none

/-- The step `history.append(det_box)` followed by `if len(history) > 10:
history.pop(0)` (main.py lines 99-102). -/
def pushHistory (b : Box) (hist : List Box) : List Box :=
  let h' := hist ++ [b]
  if 10 < h'.length then h'.tail else h'

/-- The in-place mutation of a matched track (main.py lines 96-99): set its
box to the detection's box, its `last_seen` to `now`, and push the box onto
its history.  The dict entry keeps its position. -/
def updateTrack (tid : ℕ) (b : Box) (now : ℚ)
    (tracks : List (ℕ × Track)) : List (ℕ × Track) :=
  tracks.map fun p =>
    if p.1 = tid then (p.1, ⟨b, now, pushHistory b p.2.history⟩) else p

/-- The main `for det in detections` loop of `update` (main.py lines 80-114):
returns the final table, the final `next_id`, and the annotated results in
order.  On a match the track is updated in place and its id added to
`matched_tracks`; otherwise a fresh track keyed `next_id` is appended at
the end of the dict and the counter incremented.  Note that a track created
here is *not* added to `matched_tracks`. -/
def updateRun {α : Type} (thr now : ℚ) :
    List (Box × α) → List (ℕ × Track) → ℕ → List ℕ →
    List (ℕ × Track) × ℕ × List ((Box × α) × ℕ)
  | [], tracks, nid, _ => (tracks, nid, [])
  | det :: rest, tracks, nid, matched =>
    match bestMatch det.1 matched tracks thr with
    | some tid =>
      let r := updateRun thr now rest (updateTrack tid det.1 now tracks) nid
        (tid :: matched)
      (r.1, r.2.1, (det, tid) :: r.2.2)
    | none =>
      let r := updateRun thr now rest
        (tracks ++ [(nid, ⟨det.1, now, [det.1]⟩)]) (nid + 1) matched
      (r.1, r.2.1, (det, nid) :: r.2.2)

/-- The method `PersonTracker.update` (main.py lines 64-116): evict stale tracks, then
run the greedy matching loop; returns the new tracker state and the
detections annotated with their `track_id`. -/
def update {α : Type} (st : TrackerState) (dets : List (Box × α))
    (now : ℚ) : TrackerState × List ((Box × α) × ℕ) :=
  let alive := evict st.max_age now st.tracks
  let r := updateRun st.iou_threshold now dets alive st.next_id []
  (⟨r.1, r.2.1, st.max_age, st.iou_threshold⟩, r.2.2)

/-- The count `len(person_tracker.tracks)` value that `detect_persons`
(main.py line 273) returns right after calling `update`. -/
def activeTrackCount {α : Type} (st : TrackerState) (dets : List (Box × α))
    (now : ℚ) : ℕ :=
  (update st dets now).1.tracks.length

/-- Well-formedness of the table, as maintained by the Python dict: entries
in strictly ascending id order, all ids below `next_id`. -/
def WF (st : TrackerState) : Prop :=
  st.tracks.Pairwise (fun p q => p.1 < q.1) ∧
    ∀ p ∈ st.tracks, p.1 < st.next_id

instance : DecidablePred WF := fun st => by
  unfold WF; infer_instance

/-! ## Properties of the IoU computation -/

/-- C8: if at least one of the two boxes is degenerate (zero or negative
width or height) then `_iou` returns `0`; and in general, whenever the
computed union area is not positive the division branch is skipped and `0`
is returned, so `_iou` never divides by zero. -/
theorem iou_degenerate_zero (b1 b2 : Box)
    (hdeg : b1.w ≤ 0 ∨ b1.h ≤ 0 ∨ b2.w ≤ 0 ∨ b2.h ≤ 0) :
    iou b1 b2 = 0 ∧
    ∀ a c : Box,
      a.w * a.h + c.w * c.h -
          (fmin (a.x + a.w) (c.x + c.w) - fmax a.x c.x) *
            (fmin (a.y + a.h) (c.y + c.h) - fmax a.y c.y) ≤ 0 →
      iou a c = 0 := by
  constructor
  · have hguard : fmin (b1.x + b1.w) (b2.x + b2.w) ≤ fmax b1.x b2.x ∨
        fmin (b1.y + b1.h) (b2.y + b2.h) ≤ fmax b1.y b2.y := by
      rw [fmin_eq_min, fmin_eq_min, fmax_eq_max, fmax_eq_max]
      rcases hdeg with h | h | h | h
      · exact Or.inl (le_trans (le_trans (min_le_left _ _) (by linarith))
          (le_max_left _ _))
      · exact Or.inr (le_trans (le_trans (min_le_left _ _) (by linarith))
          (le_max_left _ _))
      · exact Or.inl (le_trans (le_trans (min_le_right _ _) (by linarith))
          (le_max_right _ _))
      · exact Or.inr (le_trans (le_trans (min_le_right _ _) (by linarith))
          (le_max_right _ _))
    simp only [iou]
    rw [if_pos hguard]
  · intro a c hle
    simp only [iou]
    by_cases hguard : fmin (a.x + a.w) (c.x + c.w) ≤ fmax a.x c.x ∨
        fmin (a.y + a.h) (c.y + c.h) ≤ fmax a.y c.y
    · rw [if_pos hguard]
    · rw [if_neg hguard, if_neg]
      intro hpos
      have : ¬ (0 : ℚ) <
          a.w * a.h + c.w * c.h -
            (fmin (a.x + a.w) (c.x + c.w) - fmax a.x c.x) *
              (fmin (a.y + a.h) (c.y + c.h) - fmax a.y c.y) := not_lt.mpr hle
      exact this (by linarith [hpos])

/-- Witness for `iou_degenerate_zero` at the concrete degenerate pair
`(0,0,0,1)` (zero width) against `(0,0,1,1)`. -/
theorem iou_degenerate_zero_witness :
    ((⟨0, 0, 0, 1⟩ : Box).w ≤ 0 ∨ (⟨0, 0, 0, 1⟩ : Box).h ≤ 0 ∨
      (⟨0, 0, 1, 1⟩ : Box).w ≤ 0 ∨ (⟨0, 0, 1, 1⟩ : Box).h ≤ 0) ∧
    iou ⟨0, 0, 0, 1⟩ ⟨0, 0, 1, 1⟩ = 0 :=
  ⟨by decide, (iou_degenerate_zero ⟨0, 0, 0, 1⟩ ⟨0, 0, 1, 1⟩ (by decide)).1⟩

/-- C9: `_iou` of a box with positive width and height against itself is
exactly `1`, and `_iou` of two boxes whose rectangles do not overlap
(the intersection rectangle is empty or degenerates to an edge) is
exactly `0`. -/
theorem iou_self_one_disjoint_zero (b : Box) (hw : 0 < b.w) (hh : 0 < b.h) :
    iou b b = 1 ∧
    ∀ a c : Box,
      (fmin (a.x + a.w) (c.x + c.w) ≤ fmax a.x c.x ∨
        fmin (a.y + a.h) (c.y + c.h) ≤ fmax a.y c.y) →
      iou a c = 0 := by
  constructor
  · simp only [iou, fmin_eq_min, fmax_eq_max, min_self, max_self]
    rw [if_neg]
    · have harea : b.w * b.h + b.w * b.h - (b.x + b.w - b.x) * (b.y + b.h - b.y)
          = b.w * b.h := by ring
      rw [harea]
      have hxw : (b.x + b.w - b.x) * (b.y + b.h - b.y) = b.w * b.h := by ring
      rw [hxw, if_pos (mul_pos hw hh)]
      exact div_self (ne_of_gt (mul_pos hw hh))
    · push_neg
      constructor <;> linarith
  · intro a c hguard
    simp only [iou]
    rw [if_pos hguard]

/-- Witness for `iou_self_one_disjoint_zero` at the unit box. -/
theorem iou_self_one_disjoint_zero_witness :
    (0 < (⟨0, 0, 1, 1⟩ : Box).w ∧ 0 < (⟨0, 0, 1, 1⟩ : Box).h) ∧
    iou ⟨0, 0, 1, 1⟩ ⟨0, 0, 1, 1⟩ = 1 :=
  ⟨⟨by decide, by decide⟩,
    (iou_self_one_disjoint_zero ⟨0, 0, 1, 1⟩ (by decide) (by decide)).1⟩

/-! ## Determinism -/

/-- C3: `update` is a deterministic pure function of the track table state,
the detection list and the time value: two runs on equal inputs produce
equal annotated detections and equal resulting state, with no other
dependence. -/
theorem update_deterministic {α : Type} (st1 st2 : TrackerState)
    (d1 d2 : List (Box × α)) (n1 n2 : ℚ)
    (hst : st1 = st2) (hd : d1 = d2) (hn : n1 = n2) :
    update st1 d1 n1 = update st2 d2 n2 := by
  subst hst; subst hd; subst hn; rfl

/-- Witness for `update_deterministic`: two runs on the initial tracker with
one unit-box detection at time `0` coincide. -/
theorem update_deterministic_witness :
    update (α := Unit) initTracker [(⟨0, 0, 1, 1⟩, ())] 0
      = update initTracker [(⟨0, 0, 1, 1⟩, ())] 0 :=
  update_deterministic initTracker initTracker _ _ 0 0 rfl rfl rfl

/-! ## The matching phase is not a 1:1 pairing: a concrete failing input -/

/-- C1 (failing input): one `update` call on a fresh tracker with two
identical unit-box detections tags *both* detections with track id `1`.
The first detection creates track `1`; the creation branch does not add the
new id to `matched_tracks`, so the second detection matches the track just
created with IoU `1 > 0.3`.  Two detections of the same call therefore
carry the same track id, and the table ends the call with the single track
`1`, refuting the 1:1 bipartite pairing. -/
theorem update_one_call_reuses_new_track_id :
    ((update (α := Unit) initTracker
        [(⟨0, 0, 1, 1⟩, ()), (⟨0, 0, 1, 1⟩, ())] 0).2.map Prod.snd
      = [1, 1]) ∧
    ((update (α := Unit) initTracker
        [(⟨0, 0, 1, 1⟩, ()), (⟨0, 0, 1, 1⟩, ())] 0).1.tracks.map Prod.fst
      = [1]) := by
  constructor <;> decide

/-! ## Helper lemmas about the matching loop -/

theorem updateRun_results_fst {α : Type} (thr now : ℚ)
    (dets : List (Box × α)) :
    ∀ (tracks : List (ℕ × Track)) (nid : ℕ) (matched : List ℕ),
      (updateRun thr now dets tracks nid matched).2.2.map Prod.fst = dets := by
  induction dets with
  | nil => intro tracks nid matched; rfl
  | cons det rest ih =>
    intro tracks nid matched
    simp only [updateRun]
    cases hbm : bestMatch det.1 matched tracks thr with
    | none => simp [ih]
    | some tid => simp [ih]

theorem updateRun_next_id_le {α : Type} (thr now : ℚ)
    (dets : List (Box × α)) :
    ∀ (tracks : List (ℕ × Track)) (nid : ℕ) (matched : List ℕ),
      nid ≤ (updateRun thr now dets tracks nid matched).2.1 := by
  induction dets with
  | nil => intro tracks nid matched; exact le_refl _
  | cons det rest ih =>
    intro tracks nid matched
    simp only [updateRun]
    cases hbm : bestMatch det.1 matched tracks thr with
    | none => exact le_trans (Nat.le_succ _) (ih _ _ _)
    | some tid => exact ih _ _ _

theorem updateTrack_map_fst (tid : ℕ) (b : Box) (now : ℚ)
    (tracks : List (ℕ × Track)) :
    (updateTrack tid b now tracks).map Prod.fst = tracks.map Prod.fst := by
  induction tracks with
  | nil => rfl
  | cons p rest ih =>
    simp only [updateTrack, List.map_cons] at ih ⊢
    rw [ih]
    by_cases h : p.1 = tid <;> simp [h]

theorem updateRun_map_fst {α : Type} (thr now : ℚ)
    (dets : List (Box × α)) :
    ∀ (tracks : List (ℕ × Track)) (nid : ℕ) (matched : List ℕ),
      (updateRun thr now dets tracks nid matched).1.map Prod.fst
        = tracks.map Prod.fst ++
            List.range' nid
              ((updateRun thr now dets tracks nid matched).2.1 - nid) := by
  induction dets with
  | nil =>
    intro tracks nid matched
    simp [updateRun]
  | cons det rest ih =>
    intro tracks nid matched
    simp only [updateRun]
    cases hbm : bestMatch det.1 matched tracks thr with
    | some tid =>
      simpa only [updateTrack_map_fst] using
        ih (updateTrack tid det.1 now tracks) nid (tid :: matched)
    | none =>
      have hle := updateRun_next_id_le thr now rest
        (tracks ++ [(nid, ⟨det.1, now, [det.1]⟩)]) (nid + 1) matched
      rw [ih]
      rw [List.map_append, List.append_assoc]
      congr 1
      have hdelta :
          (updateRun thr now rest (tracks ++ [(nid, ⟨det.1, now, [det.1]⟩)])
              (nid + 1) matched).2.1 - nid
            = ((updateRun thr now rest
                (tracks ++ [(nid, ⟨det.1, now, [det.1]⟩)])
                (nid + 1) matched).2.1 - (nid + 1)) + 1 := by
        omega
      rw [hdelta, List.range'_succ]
      rfl

theorem updateRun_length {α : Type} (thr now : ℚ) (dets : List (Box × α))
    (tracks : List (ℕ × Track)) (nid : ℕ) (matched : List ℕ) :
    (updateRun thr now dets tracks nid matched).1.length
      = tracks.length + ((updateRun thr now dets tracks nid matched).2.1 - nid) := by
  have h := updateRun_map_fst thr now dets tracks nid matched
  have hlen := congrArg List.length h
  simpa using hlen

theorem updateRun_mem_preserve {α : Type} (thr now : ℚ)
    (Q : ℕ × Track → Prop)
    (hmat : ∀ (tid : ℕ) (b : Box) (tr : Track),
      Q (tid, tr) → Q (tid, ⟨b, now, pushHistory b tr.history⟩))
    (hnew : ∀ (nid : ℕ) (b : Box), Q (nid, ⟨b, now, [b]⟩))
    (dets : List (Box × α)) :
    ∀ (tracks : List (ℕ × Track)) (nid : ℕ) (matched : List ℕ),
      (∀ p ∈ tracks, Q p) →
      ∀ p ∈ (updateRun thr now dets tracks nid matched).1, Q p := by
  induction dets with
  | nil =>
    intro tracks nid matched hQ
    simpa [updateRun] using hQ
  | cons det rest ih =>
    intro tracks nid matched hQ
    simp only [updateRun]
    cases hbm : bestMatch det.1 matched tracks thr with
    | some tid =>
      apply ih
      intro p hp
      simp only [updateTrack, List.mem_map] at hp
      obtain ⟨q, hq, hpq⟩ := hp
      by_cases h : q.1 = tid
      · rw [if_pos h] at hpq
        subst hpq
        subst h
        exact hmat q.1 det.1 q.2 (hQ q hq)
      · rw [if_neg h] at hpq
        subst hpq
        exact hQ q hq
    | none =>
      apply ih
      intro p hp
      rcases List.mem_append.mp hp with h | h
      · exact hQ p h
      · rw [List.mem_singleton] at h
        subst h
        exact hnew nid det.1

/-- Unfolding `update` to its matching loop: a definitional repackaging
used to transport `updateRun` lemmas. -/
theorem update_eq {α : Type} (st : TrackerState) (dets : List (Box × α))
    (now : ℚ) :
    (update st dets now).1.tracks
        = (updateRun st.iou_threshold now dets
            (evict st.max_age now st.tracks) st.next_id []).1 ∧
    (update st dets now).1.next_id
        = (updateRun st.iou_threshold now dets
            (evict st.max_age now st.tracks) st.next_id []).2.1 ∧
    (update st dets now).2
        = (updateRun st.iou_threshold now dets
            (evict st.max_age now st.tracks) st.next_id []).2.2 :=
  ⟨rfl, rfl, rfl⟩

/-! ## Returned detections and the active-track count -/

/-- C4: every `update` call returns all input detections in order, each
annotated with a track id, and the `len(person_tracker.tracks)` count that
`detect_persons` reports right after the call equals the table size after
that call's eviction pass plus the number of tracks created in the call
(the advance of `next_id`), i.e. the table size immediately after eviction
and creation. -/
theorem update_returns_all_and_count {α : Type} (st : TrackerState)
    (dets : List (Box × α)) (now : ℚ) :
    (update st dets now).2.map Prod.fst = dets ∧
    activeTrackCount st dets now
      = (evict st.max_age now st.tracks).length
        + ((update st dets now).1.next_id - st.next_id) := by
  obtain ⟨h1, h2, h3⟩ := update_eq st dets now
  constructor
  · rw [h3]
    exact updateRun_results_fst _ _ _ _ _ _
  · show (update st dets now).1.tracks.length = _
    rw [h1, h2]
    exact updateRun_length _ _ _ _ _ _

/-! ## Eviction semantics -/

/-- C5: the eviction pass at the start of `update` keeps exactly the tracks
with `now - last_seen ≤ max_age`, it runs before any matching, and hence
(for a non-negative `max_age`) every track in the table after the call —
matched, untouched or created — satisfies `now - last_seen ≤ max_age`: no
detection is ever matched against a stale track. -/
theorem update_evicts_stale_tracks {α : Type} (st : TrackerState)
    (dets : List (Box × α)) (now : ℚ) (hage : 0 ≤ st.max_age) :
    (∀ p, p ∈ evict st.max_age now st.tracks ↔
        (p ∈ st.tracks ∧ now - p.2.last_seen ≤ st.max_age)) ∧
    ∀ p ∈ (update st dets now).1.tracks,
      now - p.2.last_seen ≤ st.max_age := by
  have hmem : ∀ p, p ∈ evict st.max_age now st.tracks ↔
      (p ∈ st.tracks ∧ now - p.2.last_seen ≤ st.max_age) := by
    intro p
    simp [evict, List.mem_filter]
  refine ⟨hmem, ?_⟩
  rw [(update_eq st dets now).1]
  apply updateRun_mem_preserve st.iou_threshold now
    (fun p => now - p.2.last_seen ≤ st.max_age)
  · intro tid b tr _
    simpa using hage
  · intro nid b
    simpa using hage
  · intro p hp
    exact ((hmem p).mp hp).2

/-- A concrete tracker state with one live track, used by the witnesses. -/
def stW : TrackerState :=
  ⟨[(1, ⟨⟨0, 0, 1, 1⟩, 0, [⟨0, 0, 1, 1⟩]⟩)], 2, 2, 3/10⟩

/-- Witness for `update_evicts_stale_tracks`: at time `3` the track last
seen at `0` is stale (`3 - 0 > 2`) and every track left after the call is
fresh. -/
theorem update_evicts_stale_tracks_witness :
    (0 ≤ stW.max_age) ∧
    ∀ p ∈ (update (α := Unit) stW [(⟨0, 0, 1, 1⟩, ())] 3).1.tracks,
      (3 : ℚ) - p.2.last_seen ≤ stW.max_age :=
  ⟨by decide, (update_evicts_stale_tracks stW [(⟨0, 0, 1, 1⟩, ())] 3
    (by decide)).2⟩

/-! ## Track ids are fresh and strictly increasing -/

theorem update_next_id_mono {α : Type} (st : TrackerState)
    (dets : List (Box × α)) (now : ℚ) :
    st.next_id ≤ (update st dets now).1.next_id := by
  rw [(update_eq st dets now).2.1]
  exact updateRun_next_id_le _ _ _ _ _ _

theorem update_tracks_map_fst {α : Type} (st : TrackerState)
    (dets : List (Box × α)) (now : ℚ) :
    (update st dets now).1.tracks.map Prod.fst
      = (evict st.max_age now st.tracks).map Prod.fst ++
          List.range' st.next_id
            ((update st dets now).1.next_id - st.next_id) := by
  rw [(update_eq st dets now).1, (update_eq st dets now).2.1]
  exact updateRun_map_fst _ _ _ _ _ _

theorem update_ids_lt_next {α : Type} (st : TrackerState)
    (dets : List (Box × α)) (now : ℚ)
    (hbound : ∀ p ∈ st.tracks, p.1 < st.next_id) :
    ∀ p ∈ (update st dets now).1.tracks,
      p.1 < (update st dets now).1.next_id := by
  intro p hp
  have hmem : p.1 ∈ (update st dets now).1.tracks.map Prod.fst :=
    List.mem_map_of_mem _ hp
  rw [update_tracks_map_fst st dets now] at hmem
  have hle := update_next_id_mono st dets now
  rcases List.mem_append.mp hmem with h | h
  · obtain ⟨q, hq, hqe⟩ := List.mem_map.mp h
    have hqs : q ∈ st.tracks := (List.mem_filter.mp hq).1
    have := hbound q hqs
    omega
  · have := List.mem_range'_1.mp h
    omega

/-- C6: `next_id` never decreases across an `update` call; the ids in the
table after the call are exactly the surviving pre-call ids followed by the
consecutive fresh ids `next_id, next_id+1, …` of the tracks created in this
call, in creation order (so ids are strictly increasing in creation order);
and when every pre-call id is below `next_id`, every post-call id is below
the new `next_id` — so no evicted or live id is ever reassigned later. -/
theorem update_ids_fresh_increasing {α : Type} (st : TrackerState)
    (dets : List (Box × α)) (now : ℚ)
    (hwf : ∀ p ∈ st.tracks, p.1 < st.next_id) :
    st.next_id ≤ (update st dets now).1.next_id ∧
    (update st dets now).1.tracks.map Prod.fst
      = (evict st.max_age now st.tracks).map Prod.fst ++
          List.range' st.next_id
            ((update st dets now).1.next_id - st.next_id) ∧
    ∀ p ∈ (update st dets now).1.tracks,
      p.1 < (update st dets now).1.next_id :=
  ⟨update_next_id_mono st dets now, update_tracks_map_fst st dets now,
    update_ids_lt_next st dets now hwf⟩

/-- Witness for `update_ids_fresh_increasing` on `stW` at time `3`: the
stale track `1` is evicted and the detection creates the fresh track `2`,
never reusing id `1`. -/
theorem update_ids_fresh_increasing_witness :
    (∀ p ∈ stW.tracks, p.1 < stW.next_id) ∧
    (update (α := Unit) stW [(⟨0, 0, 1, 1⟩, ())] 3).1.tracks.map Prod.fst
      = (evict stW.max_age 3 stW.tracks).map Prod.fst ++
          List.range' stW.next_id
            ((update (α := Unit) stW [(⟨0, 0, 1, 1⟩, ())] 3).1.next_id
              - stW.next_id) :=
  ⟨by decide, (update_ids_fresh_increasing stW [(⟨0, 0, 1, 1⟩, ())] 3
    (by decide)).2.1⟩

/-! ## History capacity and FIFO behaviour -/

theorem pushHistory_length_le (b : Box) (hist : List Box)
    (h : hist.length ≤ 10) : (pushHistory b hist).length ≤ 10 := by
  unfold pushHistory
  by_cases hc : 10 < (hist ++ [b]).length
  · rw [if_pos hc, List.length_tail]
    simp only [List.length_append, List.length_singleton]
    omega
  · rw [if_neg hc]
    simp only [List.length_append, List.length_singleton] at hc ⊢
    omega

theorem pushHistory_fifo (b : Box) (hist : List Box)
    (h : 10 < (hist ++ [b]).length) :
    pushHistory b hist = hist.tail ++ [b] := by
  unfold pushHistory
  rw [if_pos h]
  cases hist with
  | nil => simp at h
  | cons x xs => rfl

theorem pushHistory_getLast (b : Box) (hist : List Box) :
    (pushHistory b hist).getLast? = some b := by
  unfold pushHistory
  by_cases hc : 10 < (hist ++ [b]).length
  · rw [if_pos hc]
    cases hist with
    | nil => simp at hc
    | cons x xs =>
      show ((x :: xs ++ [b]).tail).getLast? = some b
      simp [List.getLast?_concat]
  · rw [if_neg hc]
    exact List.getLast?_concat _

/-- C7: if every track's history has at most 10 entries before a call, the
same holds after the call; and whenever appending a box would push a
history past 10 entries, the entry discarded is exactly the oldest one
(the front of the sequence), FIFO. -/
theorem update_history_capped {α : Type} (st : TrackerState)
    (dets : List (Box × α)) (now : ℚ)
    (hcap : ∀ p ∈ st.tracks, p.2.history.length ≤ 10) :
    (∀ p ∈ (update st dets now).1.tracks, p.2.history.length ≤ 10) ∧
    ∀ (b : Box) (hist : List Box), 10 < (hist ++ [b]).length →
      pushHistory b hist = hist.tail ++ [b] := by
  refine ⟨?_, fun b hist h => pushHistory_fifo b hist h⟩
  rw [(update_eq st dets now).1]
  apply updateRun_mem_preserve st.iou_threshold now
    (fun p => p.2.history.length ≤ 10)
  · intro tid b tr htr
    exact pushHistory_length_le b tr.history htr
  · intro nid b
    simp
  · intro p hp
    exact hcap p (List.mem_filter.mp hp).1

/-- Witness for `update_history_capped` on `stW` at time `1` (the track is
matched and its history grows to 2 entries, within the cap). -/
theorem update_history_capped_witness :
    (∀ p ∈ stW.tracks, p.2.history.length ≤ 10) ∧
    ∀ p ∈ (update (α := Unit) stW [(⟨0, 0, 1, 1⟩, ())] 1).1.tracks,
      p.2.history.length ≤ 10 :=
  ⟨by decide, (update_history_capped stW [(⟨0, 0, 1, 1⟩, ())] 1
    (by decide)).1⟩

/-! ## Histories are non-empty and end at the current box -/

/-- C10: if before a call every track's history is non-empty and ends with
the track's current box, the same holds after the call: a new track is
seeded with `history = [box]`, and a match appends the new box (then trims
from the front), keeping the last history entry equal to `box`. -/
theorem update_history_last_is_box {α : Type} (st : TrackerState)
    (dets : List (Box × α)) (now : ℚ)
    (hlast : ∀ p ∈ st.tracks, p.2.history.getLast? = some p.2.box) :
    ∀ p ∈ (update st dets now).1.tracks,
      p.2.history ≠ [] ∧ p.2.history.getLast? = some p.2.box := by
  have hQ : ∀ p ∈ (update st dets now).1.tracks,
      p.2.history.getLast? = some p.2.box := by
    rw [(update_eq st dets now).1]
    apply updateRun_mem_preserve st.iou_threshold now
      (fun p => p.2.history.getLast? = some p.2.box)
    · intro tid b tr _
      exact pushHistory_getLast b tr.history
    · intro nid b
      rfl
    · intro p hp
      exact hlast p (List.mem_filter.mp hp).1
  intro p hp
  refine ⟨?_, hQ p hp⟩
  intro hnil
  have hcontra := hQ p hp
  rw [hnil] at hcontra
  simp at hcontra

/-- Witness for `update_history_last_is_box` on `stW` at time `1`. -/
theorem update_history_last_is_box_witness :
    (∀ p ∈ stW.tracks, p.2.history.getLast? = some p.2.box) ∧
    ∀ p ∈ (update (α := Unit) stW [(⟨0, 0, 1, 1⟩, ())] 1).1.tracks,
      p.2.history ≠ [] ∧ p.2.history.getLast? = some p.2.box :=
  ⟨by decide, update_history_last_is_box stW [(⟨0, 0, 1, 1⟩, ())] 1
    (by decide)⟩

/-! ## Greedy matching: characterization of the best-match scan -/

theorem range'_pairwise_lt (s n : ℕ) :
    (List.range' s n).Pairwise (· < ·) := by
  induction n generalizing s with
  | zero => simp
  | succ k ih =>
    rw [List.range'_succ]
    refine List.Pairwise.cons ?_ (ih (s + 1))
    intro b hb
    have := List.mem_range'_1.mp hb
    omega

/-- Invariant characterization of the inner best-match scan of `update`,
for tables in ascending-id order.  The accumulator pair `(bIou, best)` is
described exactly: a `none` result means no unmatched candidate beats
`bIou`; a `some c` result is either the incoming `best` (and nothing in
the list beats `bIou`) or a candidate from the list that strictly beats
`bIou`, is maximal among candidates, and is strictly better than every
candidate with a smaller id (i.e. every earlier candidate). -/
theorem bestMatchAux_char (det : Box) (M : List ℕ) :
    ∀ (l : List (ℕ × Track)), l.Pairwise (fun p q => p.1 < q.1) →
    ∀ (bIou : ℚ) (best : Option ℕ),
      (bestMatchAux det M l bIou best = none →
        best = none ∧ ∀ p ∈ l, p.1 ∉ M → iou det p.2.box ≤ bIou) ∧
      (∀ c, bestMatchAux det M l bIou best = some c →
        (best = some c ∧ ∀ p ∈ l, p.1 ∉ M → iou det p.2.box ≤ bIou) ∨
        (c ∉ M ∧ ∃ tr, (c, tr) ∈ l ∧ bIou < iou det tr.box ∧
          (∀ p ∈ l, p.1 ∉ M → iou det p.2.box ≤ iou det tr.box) ∧
          (∀ p ∈ l, p.1 ∉ M → p.1 < c → iou det p.2.box < iou det tr.box))) := by
  intro l
  induction l with
  | nil =>
    intro _ bIou best
    constructor
    · intro h
      exact ⟨by simpa [bestMatchAux] using h,
        fun p hp => absurd hp (List.not_mem_nil p)⟩
    · intro c h
      left
      exact ⟨by simpa [bestMatchAux] using h,
        fun p hp => absurd hp (List.not_mem_nil p)⟩
  | cons hd rest ih =>
    obtain ⟨tid, tr⟩ := hd
    intro hsort bIou best
    obtain ⟨hhd, hrest⟩ := List.pairwise_cons.mp hsort
    have IH := ih hrest
    by_cases hm : tid ∈ M
    · have heq : bestMatchAux det M ((tid, tr) :: rest) bIou best
          = bestMatchAux det M rest bIou best := by
        simp only [bestMatchAux]
        rw [if_pos hm]
      constructor
      · intro h
        rw [heq] at h
        obtain ⟨hb, hall⟩ := (IH bIou best).1 h
        refine ⟨hb, ?_⟩
        intro p hp hpM
        rcases List.mem_cons.mp hp with rfl | hp'
        · exact absurd hm hpM
        · exact hall p hp' hpM
      · intro c h
        rw [heq] at h
        rcases (IH bIou best).2 c h with ⟨hb, hall⟩ |
          ⟨hcM, tr', htr', hlt, hmax, hfst⟩
        · left
          refine ⟨hb, ?_⟩
          intro p hp hpM
          rcases List.mem_cons.mp hp with rfl | hp'
          · exact absurd hm hpM
          · exact hall p hp' hpM
        · right
          refine ⟨hcM, tr', List.mem_cons_of_mem _ htr', hlt, ?_, ?_⟩
          · intro p hp hpM
            rcases List.mem_cons.mp hp with rfl | hp'
            · exact absurd hm hpM
            · exact hmax p hp' hpM
          · intro p hp hpM hpc
            rcases List.mem_cons.mp hp with rfl | hp'
            · exact absurd hm hpM
            · exact hfst p hp' hpM hpc
    · by_cases himp : bIou < iou det tr.box
      · have heq : bestMatchAux det M ((tid, tr) :: rest) bIou best
            = bestMatchAux det M rest (iou det tr.box) (some tid) := by
          simp only [bestMatchAux]
          rw [if_neg hm, if_pos himp]
        constructor
        · intro h
          rw [heq] at h
          obtain ⟨hb, _⟩ := (IH (iou det tr.box) (some tid)).1 h
          exact absurd hb (by simp)
        · intro c h
          rw [heq] at h
          rcases (IH (iou det tr.box) (some tid)).2 c h with ⟨hb, hall⟩ |
            ⟨hcM, tr', htr', hlt, hmax, hfst⟩
          · have hc : tid = c := by injection hb
            subst hc
            right
            refine ⟨hm, tr, List.mem_cons_self _ _, himp, ?_, ?_⟩
            · intro p hp hpM
              rcases List.mem_cons.mp hp with rfl | hp'
              · exact le_refl _
              · exact hall p hp' hpM
            · intro p hp hpM hpc
              rcases List.mem_cons.mp hp with rfl | hp'
              · exact absurd hpc (lt_irrefl _)
              · exact absurd hpc (not_lt.mpr (le_of_lt (hhd p hp')))
          · right
            refine ⟨hcM, tr', List.mem_cons_of_mem _ htr',
              lt_trans himp hlt, ?_, ?_⟩
            · intro p hp hpM
              rcases List.mem_cons.mp hp with rfl | hp'
              · exact le_of_lt hlt
              · exact hmax p hp' hpM
            · intro p hp hpM hpc
              rcases List.mem_cons.mp hp with rfl | hp'
              · exact hlt
              · exact hfst p hp' hpM hpc
      · have heq : bestMatchAux det M ((tid, tr) :: rest) bIou best
            = bestMatchAux det M rest bIou best := by
          simp only [bestMatchAux]
          rw [if_neg hm, if_neg himp]
        constructor
        · intro h
          rw [heq] at h
          obtain ⟨hb, hall⟩ := (IH bIou best).1 h
          refine ⟨hb, ?_⟩
          intro p hp hpM
          rcases List.mem_cons.mp hp with rfl | hp'
          · exact not_lt.mp himp
          · exact hall p hp' hpM
        · intro c h
          rw [heq] at h
          rcases (IH bIou best).2 c h with ⟨hb, hall⟩ |
            ⟨hcM, tr', htr', hlt, hmax, hfst⟩
          · left
            refine ⟨hb, ?_⟩
            intro p hp hpM
            rcases List.mem_cons.mp hp with rfl | hp'
            · exact not_lt.mp himp
            · exact hall p hp' hpM
          · right
            refine ⟨hcM, tr', List.mem_cons_of_mem _ htr', hlt, ?_, ?_⟩
            · intro p hp hpM
              rcases List.mem_cons.mp hp with rfl | hp'
              · exact le_trans (not_lt.mp himp) (le_of_lt hlt)
              · exact hmax p hp' hpM
            · intro p hp hpM hpc
              rcases List.mem_cons.mp hp with rfl | hp'
              · exact lt_of_le_of_lt (not_lt.mp himp) hlt
              · exact hfst p hp' hpM hpc

/-- Well-formedness `WF` (ascending-id order and ids below `next_id`) is preserved by
`update` — the Python-dict insertion-order invariant behind the
ascending-id iteration of the matching loop. -/
theorem update_WF_preserved {α : Type} (st : TrackerState)
    (dets : List (Box × α)) (now : ℚ) (hwf : WF st) :
    WF (update st dets now).1 := by
  obtain ⟨hsort, hbound⟩ := hwf
  refine ⟨?_, update_ids_lt_next st dets now hbound⟩
  have halive : (evict st.max_age now st.tracks).Pairwise
      (fun p q => p.1 < q.1) := List.Pairwise.filter _ hsort
  apply List.pairwise_map.mp
  rw [update_tracks_map_fst st dets now, List.pairwise_append]
  refine ⟨List.pairwise_map.mpr halive, range'_pairwise_lt _ _, ?_⟩
  intro a ha b hb
  obtain ⟨q, hq, hqe⟩ := List.mem_map.mp ha
  have hqs : q ∈ st.tracks := (List.mem_filter.mp hq).1
  have h1 := hbound q hqs
  have h2 := List.mem_range'_1.mp hb
  omega

/-- C2: when the table is in ascending-id order (and `WF` is an invariant
of `update`, third conjunct), the per-detection matching scan yields no
match exactly when no unmatched track's IoU strictly exceeds the threshold
— an IoU equal to the threshold is no match (first conjunct) — and
otherwise selects an unmatched track with IoU strictly above the threshold
that is maximal among all unmatched tracks and, among ties for the
maximum, has the smallest id (second conjunct). -/
theorem update_greedy_matching {α : Type}
    (l : List (ℕ × Track)) (M : List ℕ) (det : Box) (thr : ℚ)
    (hsort : l.Pairwise (fun p q => p.1 < q.1)) :
    (bestMatch det M l thr = none →
      ∀ p ∈ l, p.1 ∉ M → iou det p.2.box ≤ thr) ∧
    (∀ c, bestMatch det M l thr = some c →
      c ∉ M ∧ ∃ tr, (c, tr) ∈ l ∧ thr < iou det tr.box ∧
        (∀ p ∈ l, p.1 ∉ M → iou det p.2.box ≤ iou det tr.box) ∧
        (∀ p ∈ l, p.1 ∉ M → iou det p.2.box = iou det tr.box → c ≤ p.1)) ∧
    (∀ (st : TrackerState) (dets : List (Box × α)) (now : ℚ),
      WF st → WF (update st dets now).1) := by
  have hchar := bestMatchAux_char det M l hsort thr none
  refine ⟨?_, ?_, fun st dets now hwf => update_WF_preserved st dets now hwf⟩
  · intro h p hp hpM
    exact ((hchar.1 h).2) p hp hpM
  · intro c h
    rcases hchar.2 c h with ⟨hb, _⟩ | ⟨hcM, tr, htr, hlt, hmax, hfst⟩
    · simp at hb
    · refine ⟨hcM, tr, htr, hlt, hmax, ?_⟩
      intro p hp hpM heq
      by_contra hle
      push_neg at hle
      have := hfst p hp hpM hle
      rw [heq] at this
      exact lt_irrefl _ this

/-- Witness for `update_greedy_matching` on the concrete sorted table of
`stW` with an overlapping detection: the scan matches track `1`. -/
theorem update_greedy_matching_witness :
    (stW.tracks.Pairwise (fun p q => p.1 < q.1)) ∧
    ∀ c, bestMatch ⟨0, 0, 1, 1⟩ [] stW.tracks (3/10) = some c →
      c ∉ ([] : List ℕ) ∧ ∃ tr, (c, tr) ∈ stW.tracks ∧
        (3/10 : ℚ) < iou ⟨0, 0, 1, 1⟩ tr.box ∧
        (∀ p ∈ stW.tracks, p.1 ∉ ([] : List ℕ) →
          iou ⟨0, 0, 1, 1⟩ p.2.box ≤ iou ⟨0, 0, 1, 1⟩ tr.box) ∧
        (∀ p ∈ stW.tracks, p.1 ∉ ([] : List ℕ) →
          iou ⟨0, 0, 1, 1⟩ p.2.box = iou ⟨0, 0, 1, 1⟩ tr.box → c ≤ p.1) :=
  ⟨by decide, (update_greedy_matching (α := Unit) stW.tracks []
    ⟨0, 0, 1, 1⟩ (3/10) (by decide)).2.1⟩

end MediWatch
